import Mathlib

/-!
Verification of the `ratebroker` sliding-window rate limiter.

Shallow embedding conventions:
* `time.Time` and `time.Duration` are modelled as `Int` nanosecond counts;
  `t.Before u` is `t < u`, `t.Add d` is `t + d`, `t.Sub u` is `t - u`.
* Go panics (nil dereference on a zero-capacity `container/ring`) are
  modelled by `Option`: `none` is a panic.
* The Go mutexes only serialize calls; the sequential model needs no lock.
-/

namespace Ratebroker

/-! ## Ring limiter (`limiter/ring.go`, `RingLimiter`)

`container/ring.New(n)` builds a cyclic list of `n` slots, each holding
`nil` until written; for `n = 0` it returns the nil pointer, so every later
`rl.ring.Value` access panics.  We model the ring read off in cursor order:
`slots.head?` is the slot under the cursor (`rl.ring`), and advancing the
cursor rotates the list.  An empty `slots` list is the nil ring. -/

structure RingLimiter where
  size : Nat
  window : Int
  slots : List (Option Int)
  deriving Repr, DecidableEq

/-- `NewRingLimiter(size, window)`: `ring.New(size)` with all slots unset. -/
def RingLimiter.new (size : Nat) (window : Int) : RingLimiter :=
  ⟨size, window, List.replicate size none⟩

/-- `RingLimiter.try`: allowed iff the slot at the cursor is nil or holds a
timestamp `Before now.Add(-window)`.  `none` models the nil-ring panic. -/
def RingLimiter.try (rl : RingLimiter) (now : Int) : Option Bool :=
  match rl.slots with
  | [] => none
  | none :: _ => some true
  | some ts :: _ => some (decide (ts < now - rl.window))

/-- `RingLimiter.accept`: write `now` into the cursor slot and advance the
cursor (`rl.ring.Value = now; rl.ring = rl.ring.Next()`). -/
def RingLimiter.accept (rl : RingLimiter) (now : Int) : Option RingLimiter :=
  match rl.slots with
  | [] => none
  | _ :: rest => some { rl with slots := rest ++ [some now] }

/-- `RingLimiter.TryAccept`: `try`, and on success `accept`. -/
def RingLimiter.tryAccept (rl : RingLimiter) (now : Int) :
    Option (Bool × RingLimiter) :=
  match rl.try now with
  | none => none
  | some true => (rl.accept now).map (fun rl' => (true, rl'))
  | some false => some (false, rl)

/-- Ring fullness at time `now`, as the code tests it: the cursor slot is
occupied and its timestamp is not strictly before `now - window`. -/
def RingLimiter.isFull (rl : RingLimiter) (now : Int) : Bool :=
  match rl.slots with
  | some ts :: _ => decide (now - rl.window ≤ ts)
  | _ => false

/-- Propositional form of `RingLimiter.isFull`. -/
def RingLimiter.full (rl : RingLimiter) (now : Int) : Prop :=
  rl.isFull now = true

instance (rl : RingLimiter) (now : Int) : Decidable (rl.full now) :=
  inferInstanceAs (Decidable (_ = true))

theorem RingLimiter.full_iff (rl : RingLimiter) (now : Int) :
    rl.full now ↔ ∃ ts, rl.slots.head? = some (some ts) ∧ now - rl.window ≤ ts := by
  unfold RingLimiter.full RingLimiter.isFull
  match h : rl.slots with
  | [] => simp
  | none :: rest => simp
  | some ts :: rest => simp

/-! ## Heap limiter (`limiter/ring.go`, `HeapLimiter`)

The Go code keeps a `container/heap` min-heap of timestamps (`Less` compares
`timestamp.Before`) and only ever reads `pq[0]` (the minimum) and `pq.Len()`.
We represent the heap by its nondecreasing sequence of timestamps: `heap.Push`
is ordered insertion and `heap.Pop` removes the head, which matches the
heap's multiset behaviour and its root exactly. -/

structure HeapLimiter where
  size : Nat
  window : Int
  pq : List Int
  deriving Repr, DecidableEq

/-- `NewHeapLimiter(size, window)`: empty priority queue. -/
def HeapLimiter.new (size : Nat) (window : Int) : HeapLimiter :=
  ⟨size, window, []⟩

/-- The eviction loop at the start of `HeapLimiter.try`:
`for pq.Len() > 0 && now.Sub(pq[0].timestamp) > window { heap.Pop(&pq) }`. -/
def evictStale (window now : Int) : List Int → List Int
  | [] => []
  | ts :: rest =>
    if window < now - ts then evictStale window now rest else ts :: rest

/-- `HeapLimiter.try`: evict stale roots, then allowed iff `pq.Len() < size`.
The eviction mutates the receiver, so the updated state is returned too. -/
def HeapLimiter.try (hl : HeapLimiter) (now : Int) : Bool × HeapLimiter :=
  (decide ((evictStale hl.window now hl.pq).length < hl.size),
   { hl with pq := evictStale hl.window now hl.pq })

/-- `HeapLimiter.accept`: `heap.Push` of a new item carrying `now`. -/
def HeapLimiter.accept (hl : HeapLimiter) (now : Int) : HeapLimiter :=
  { hl with pq := hl.pq.orderedInsert (· ≤ ·) now }

/-- `HeapLimiter.TryAccept`: `try`, and on success `accept` (the accept acts
on the state the eviction inside `try` left behind). -/
def HeapLimiter.tryAccept (hl : HeapLimiter) (now : Int) : Bool × HeapLimiter :=
  if (hl.try now).1 then (true, (hl.try now).2.accept now)
  else (false, (hl.try now).2)

/-- Heap fullness at `now`, as the code tests it: at least `size` entries
remain after the stale ones are evicted. -/
def HeapLimiter.full (hl : HeapLimiter) (now : Int) : Prop :=
  hl.size ≤ (evictStale hl.window now hl.pq).length

instance (hl : HeapLimiter) (now : Int) : Decidable (hl.full now) := by
  unfold HeapLimiter.full
  infer_instance

/-- States of a heap limiter reachable from construction by any sequence of
`Try`, `Accept` and `TryAccept` calls at arbitrary times. -/
inductive HeapLimiter.Reachable : HeapLimiter → Prop
  | init (size : Nat) (window : Int) : Reachable (HeapLimiter.new size window)
  | tryStep (hl : HeapLimiter) (now : Int) :
      Reachable hl → Reachable (hl.try now).2
  | acceptStep (hl : HeapLimiter) (now : Int) :
      Reachable hl → Reachable (hl.accept now)
  | tryAcceptStep (hl : HeapLimiter) (now : Int) :
      Reachable hl → Reachable (hl.tryAccept now).2

/-! ### Basic lemmas about the heap model -/

theorem evictStale_sorted (window now : Int) (pq : List Int)
    (h : pq.Sorted (· ≤ ·)) : (evictStale window now pq).Sorted (· ≤ ·) := by
  induction pq with
  | nil => exact h
  | cons ts rest ih =>
    rw [List.sorted_cons] at h
    unfold evictStale
    split
    · exact ih h.2
    · exact List.sorted_cons.mpr h

/-- On a sorted queue the eviction loop removes exactly the timestamps older
than `now - window`: stale entries form a prefix, and the loop stops at the
first in-window root. -/
theorem evictStale_eq_filter (window now : Int) (pq : List Int)
    (h : pq.Sorted (· ≤ ·)) :
    evictStale window now pq = pq.filter (fun ts => now - window ≤ ts) := by
  induction pq with
  | nil => rfl
  | cons ts rest ih =>
    rw [List.sorted_cons] at h
    unfold evictStale
    split
    · rename_i hlt
      rw [ih h.2, List.filter_cons]
      have : ¬ (now - window ≤ ts) := by omega
      simp [this]
    · rename_i hge
      have hts : now - window ≤ ts := by omega
      have hall : ∀ u ∈ rest, now - window ≤ u := fun u hu => le_trans hts (h.1 u hu)
      rw [List.filter_cons]
      simp only [hts, decide_eq_true_eq, if_pos]
      congr 1
      exact (List.filter_eq_self.mpr (fun u hu => decide_eq_true (hall u hu))).symm

theorem HeapLimiter.reachable_sorted (hl : HeapLimiter)
    (h : hl.Reachable) : hl.pq.Sorted (· ≤ ·) := by
  induction h with
  | init size window => simp [HeapLimiter.new]
  | tryStep hl now _ ih => exact evictStale_sorted _ _ _ ih
  | acceptStep hl now _ ih => exact List.Sorted.orderedInsert _ _ ih
  | tryAcceptStep hl now _ ih =>
    unfold HeapLimiter.tryAccept
    split
    · exact List.Sorted.orderedInsert _ _ (evictStale_sorted _ _ _ ih)
    · exact evictStale_sorted _ _ _ ih

/-- Operations preserve the configured capacity. -/
theorem HeapLimiter.try_size (hl : HeapLimiter) (now : Int) :
    (hl.try now).2.size = hl.size := rfl

/-! ## Claim C1 -/

/-- Claim C1: for every counter (ring with at least one slot — a capacity-0
ring has a nil buffer and panics, see C2 — or heap in a sorted state, which
every reachable heap state is): if the counter is not full relative to the
window at `now`, `TryAccept now` records `now` (performs the `accept` write)
and returns `true`; otherwise it returns `false` and records nothing (the
heap merely keeps its eviction).  Fullness counts no timestamp older than
`now - window`: the ring is full only when the cursor slot holds a timestamp
`≥ now - window`, and the heap is full exactly when at least `size` of its
timestamps are `≥ now - window`. -/
theorem tryAccept_matches_window_fullness :
    (∀ (rl : RingLimiter) (now : Int), rl.slots ≠ [] →
      (rl.full now → rl.tryAccept now = some (false, rl)) ∧
      (¬ rl.full now →
        rl.tryAccept now = (rl.accept now).map (fun s => (true, s))) ∧
      (rl.full now ↔
        ∃ ts, rl.slots.head? = some (some ts) ∧ now - rl.window ≤ ts)) ∧
    (∀ (hl : HeapLimiter) (now : Int), hl.pq.Sorted (· ≤ ·) →
      (hl.full now → hl.tryAccept now =
        (false, { hl with pq := hl.pq.filter (fun ts => now - hl.window ≤ ts) })) ∧
      (¬ hl.full now → hl.tryAccept now =
        (true, ({ hl with pq := hl.pq.filter (fun ts => now - hl.window ≤ ts) }
          : HeapLimiter).accept now)) ∧
      (hl.full now ↔
        hl.size ≤ (hl.pq.filter (fun ts => now - hl.window ≤ ts)).length)) := by
  constructor
  · intro rl now hne
    match hslots : rl.slots with
    | [] => exact absurd hslots hne
    | none :: rest =>
      have hfull : ¬ rl.full now := by
        unfold RingLimiter.full RingLimiter.isFull
        rw [hslots]
        simp
      refine ⟨fun h => absurd h hfull, fun _ => ?_, ?_⟩
      · unfold RingLimiter.tryAccept RingLimiter.try
        rw [hslots]
      · simp [hfull]
    | some ts :: rest =>
      have hfull : rl.full now ↔ now - rl.window ≤ ts := by
        unfold RingLimiter.full RingLimiter.isFull
        rw [hslots]
        simp
      refine ⟨fun h => ?_, fun h => ?_, ?_⟩
      · unfold RingLimiter.tryAccept RingLimiter.try
        rw [hslots]
        have : ¬ ts < now - rl.window := by
          have := hfull.mp h
          omega
        simp [this]
      · unfold RingLimiter.tryAccept RingLimiter.try
        rw [hslots]
        have : ts < now - rl.window := by
          rw [hfull] at h
          omega
        simp [this]
      · rw [hfull]
        simp
  · intro hl now hsorted
    have hev := evictStale_eq_filter hl.window now hl.pq hsorted
    have hfull : hl.full now ↔
        hl.size ≤ (hl.pq.filter (fun ts => now - hl.window ≤ ts)).length := by
      unfold HeapLimiter.full
      rw [hev]
    have h2 : (hl.try now).2 =
        { hl with pq := hl.pq.filter (fun ts => now - hl.window ≤ ts) } := by
      unfold HeapLimiter.try
      rw [hev]
    refine ⟨fun h => ?_, fun h => ?_, hfull⟩
    · have h1 : (hl.try now).1 = false := by
        unfold HeapLimiter.try
        simp only [decide_eq_false_iff_not]
        have := hfull.mp h
        rw [hev]
        omega
      unfold HeapLimiter.tryAccept
      rw [h1, h2]
      simp
    · have h1 : (hl.try now).1 = true := by
        unfold HeapLimiter.try
        simp only [decide_eq_true_eq]
        rw [hfull] at h
        rw [hev]
        omega
      unfold HeapLimiter.tryAccept
      rw [h1, h2]
      simp

/-- Witness for C1 at concrete inputs: a full one-slot ring (`[5]` at time 7,
window 10) denies and keeps its state; a full one-entry heap does the same. -/
theorem tryAccept_matches_window_fullness_witness :
    (⟨1, 10, [some 5]⟩ : RingLimiter).tryAccept 7 = some (false, ⟨1, 10, [some 5]⟩) ∧
    (⟨1, 10, [5]⟩ : HeapLimiter).tryAccept 7 = (false, ⟨1, 10, [5]⟩) := by
  constructor
  · exact (tryAccept_matches_window_fullness.1 ⟨1, 10, [some 5]⟩ 7 (by simp)).1
      (by decide)
  · have h := (tryAccept_matches_window_fullness.2 ⟨1, 10, [5]⟩ 7 (by simp)).1
      (by decide)
    rw [h]
    rfl

/-! ## Claim C2 -/

/-- Claim C2 counterexample: a heap limiter constructed with window `W = 0`
and capacity `N = 1` does not deny its first call — `TryAccept 5` returns
`true` (and records 5), while the claim says every call with `W = 0` returns
`false` and records nothing. -/
theorem zero_window_accepts_counterexample :
    ((HeapLimiter.new 1 0).tryAccept 5).1 = true ∧
    ((HeapLimiter.new 1 0).tryAccept 5).2.pq = [5] := by decide

/-- Claim C2 amended: with capacity `N = 0` the heap variant always returns
`false` and records nothing (its queue only ever shrinks, by eviction); the
ring variant with `N = 0` does not return `false` — `container/ring.New(0)`
is the nil pointer and `TryAccept` panics on it (modelled as `none`).  With
window `W = 0` neither variant always denies: a freshly constructed counter
with `N ≥ 1` accepts and records the request. -/
theorem zero_capacity_denies_zero_window_does_not :
    (∀ (hl : HeapLimiter) (now : Int), hl.size = 0 →
      hl.tryAccept now = (false, (hl.try now).2) ∧
      (hl.tryAccept now).2.pq.length ≤ hl.pq.length) ∧
    (∀ (window now : Int), (RingLimiter.new 0 window).tryAccept now = none) ∧
    (∀ (n : Nat) (t : Int), 1 ≤ n →
      ((HeapLimiter.new n 0).tryAccept t).1 = true ∧
      ((RingLimiter.new n 0).tryAccept t).map Prod.fst = some true) := by
  refine ⟨fun hl now hsz => ?_, fun window now => ?_, fun n t hn => ?_⟩
  · have h1 : (hl.try now).1 = false := by
      unfold HeapLimiter.try
      simp [hsz]
    have hlen : ∀ pq : List Int, (evictStale hl.window now pq).length ≤ pq.length := by
      intro pq
      induction pq with
      | nil => simp [evictStale]
      | cons ts rest ih =>
        unfold evictStale
        split
        · exact Nat.le_trans ih (by simp)
        · simp
    constructor
    · unfold HeapLimiter.tryAccept
      rw [h1]
      simp
    · unfold HeapLimiter.tryAccept
      rw [h1]
      simpa using hlen hl.pq
  · unfold RingLimiter.tryAccept RingLimiter.try RingLimiter.new
    simp
  · obtain ⟨m, rfl⟩ : ∃ m, n = m + 1 := ⟨n - 1, by omega⟩
    constructor
    · unfold HeapLimiter.tryAccept HeapLimiter.try HeapLimiter.new
      simp [evictStale]
    · unfold RingLimiter.tryAccept RingLimiter.try RingLimiter.new
      simp [List.replicate_succ, RingLimiter.accept]

/-- Witness for the amended C2 at concrete inputs: a capacity-0 heap holding
`[3]` denies at time 4 and keeps at most its one entry; a capacity-0 ring
panics; fresh zero-window counters of capacity 2 accept at time 9. -/
theorem zero_capacity_denies_zero_window_does_not_witness :
    ((⟨0, 10, [3]⟩ : HeapLimiter).tryAccept 4 = (false, ((⟨0, 10, [3]⟩ : HeapLimiter).try 4).2) ∧
      ((⟨0, 10, [3]⟩ : HeapLimiter).tryAccept 4).2.pq.length ≤ 1) ∧
    (RingLimiter.new 0 10).tryAccept 4 = none ∧
    (((HeapLimiter.new 2 0).tryAccept 9).1 = true ∧
      ((RingLimiter.new 2 0).tryAccept 9).map Prod.fst = some true) :=
  ⟨zero_capacity_denies_zero_window_does_not.1 ⟨0, 10, [3]⟩ 4 rfl,
   zero_capacity_denies_zero_window_does_not.2.1 10 4,
   zero_capacity_denies_zero_window_does_not.2.2 2 9 (by decide)⟩

/-! ## Claim C3 -/

/-- Claim C3: for the heap variant in every reachable state and any time
`now`: if `TryAccept now` returns `true` the queue afterwards holds at most
`size` entries, and if it returns `false` the queue afterwards holds at least
`size` entries, all of them within the window (`≥ now - window`). -/
theorem heap_tryAccept_size_invariant (hl : HeapLimiter) (now : Int)
    (h : hl.Reachable) :
    ((hl.tryAccept now).1 = true → (hl.tryAccept now).2.pq.length ≤ hl.size) ∧
    ((hl.tryAccept now).1 = false →
      hl.size ≤ (hl.tryAccept now).2.pq.length ∧
      ∀ ts ∈ (hl.tryAccept now).2.pq, now - hl.window ≤ ts) := by
  have hsorted := hl.reachable_sorted h
  have hev := evictStale_eq_filter hl.window now hl.pq hsorted
  by_cases hlen : (evictStale hl.window now hl.pq).length < hl.size
  · have h1 : (hl.try now).1 = true := by
      unfold HeapLimiter.try
      simpa using hlen
    have hres : hl.tryAccept now =
        (true, ((hl.try now).2).accept now) := by
      unfold HeapLimiter.tryAccept
      rw [h1]
      simp
    rw [hres]
    refine ⟨fun _ => ?_, fun hfalse => by simp at hfalse⟩
    show (((hl.try now).2).accept now).pq.length ≤ hl.size
    unfold HeapLimiter.accept HeapLimiter.try
    simpa [List.orderedInsert_length] using hlen
  · have h1 : (hl.try now).1 = false := by
      unfold HeapLimiter.try
      simpa using hlen
    have hres : hl.tryAccept now = (false, (hl.try now).2) := by
      unfold HeapLimiter.tryAccept
      rw [h1]
      simp
    rw [hres]
    refine ⟨fun htrue => by simp at htrue, fun _ => ⟨by simpa using Nat.le_of_not_lt hlen, ?_⟩⟩
    intro ts hts
    show now - hl.window ≤ ts
    have hmem : ts ∈ evictStale hl.window now hl.pq := hts
    rw [hev] at hmem
    simpa using (List.mem_filter.mp hmem).2

/-- Witness for C3 at a concrete reachable state: from a fresh heap of
capacity 1 and window 10, accepting at time 3 and trying again at time 5 is
denied with at least one retained entry, and the retained entry 3 is within
the window at time 5. -/
theorem heap_tryAccept_size_invariant_witness :
    1 ≤ (((HeapLimiter.new 1 10).accept 3).tryAccept 5).2.pq.length ∧
    (5 : Int) - 10 ≤ 3 := by
  have h := (heap_tryAccept_size_invariant ((HeapLimiter.new 1 10).accept 3) 5
    (HeapLimiter.Reachable.acceptStep _ 3 (HeapLimiter.Reachable.init 1 10))).2
    (by decide)
  exact ⟨h.1, h.2 3 (by decide)⟩

/-! ## Claim C4 -/

/-- Claim C4 counterexample: the ring state holding timestamp 100 (capacity
1, window 10) is reachable — it is `Accept 100` from a fresh ring — and
`TryAccept 50` on it returns `false`, yet the entry at the cursor, 100, does
not lie in the claimed interval `[50 - 10, 50]`. -/
theorem ring_cursor_interval_counterexample :
    (RingLimiter.new 1 10).accept 100 = some ⟨1, 10, [some 100]⟩ ∧
    (⟨1, 10, [some 100]⟩ : RingLimiter).tryAccept 50 =
      some (false, ⟨1, 10, [some 100]⟩) ∧
    ¬ ((50 : Int) - 10 ≤ 100 ∧ (100 : Int) ≤ 50) := by decide

/-- Claim C4 amended: for the ring variant in every state and any time
`now`, if `TryAccept now` returns `false` then the timestamp at the cursor
is `≥ now - window`; it lies in the full interval `[now - window, now]`
whenever no recorded timestamp exceeds `now` (an `Accept` of an out-of-order
remote event can place a timestamp above the observation time, in which case
only the lower bound holds). -/
theorem ring_cursor_in_window_on_denial (rl : RingLimiter) (now : Int)
    (rl' : RingLimiter) (h : rl.tryAccept now = some (false, rl')) :
    ∃ ts, rl.slots.head? = some (some ts) ∧ now - rl.window ≤ ts ∧
      ((∀ u : Int, some u ∈ rl.slots → u ≤ now) →
        now - rl.window ≤ ts ∧ ts ≤ now) := by
  match hslots : rl.slots with
  | [] =>
    unfold RingLimiter.tryAccept RingLimiter.try at h
    rw [hslots] at h
    exact absurd h (by simp)
  | none :: rest =>
    unfold RingLimiter.tryAccept RingLimiter.try RingLimiter.accept at h
    rw [hslots] at h
    simp at h
  | some ts :: rest =>
    refine ⟨ts, by simp, ?_⟩
    unfold RingLimiter.tryAccept RingLimiter.try RingLimiter.accept at h
    rw [hslots] at h
    by_cases hlt : ts < now - rl.window
    · simp [hlt] at h
    · have hge : now - rl.window ≤ ts := by omega
      refine ⟨hge, fun hall => ⟨hge, ?_⟩⟩
      exact hall ts (List.mem_cons_self _ _)

/-- Witness for the amended C4 at a concrete input: a ring holding 6
(capacity 1, window 10) denies at time 7, and its cursor entry 6 lies in
`[7 - 10, 7]` since every recorded timestamp is `≤ 7`. -/
theorem ring_cursor_in_window_on_denial_witness :
    ∃ ts, (⟨1, 10, [some 6]⟩ : RingLimiter).slots.head? = some (some ts) ∧
      (7 : Int) - 10 ≤ ts ∧
      ((∀ u : Int, some u ∈ (⟨1, 10, [some 6]⟩ : RingLimiter).slots → u ≤ 7) →
        (7 : Int) - 10 ≤ ts ∧ ts ≤ 7) :=
  ring_cursor_in_window_on_denial ⟨1, 10, [some 6]⟩ 7 ⟨1, 10, [some 6]⟩ (by decide)

/-! ## Decision engine and consumer handler (`ratebroker.go`)

`RateBroker` works against the `limiter.Limiter` interface; the model takes
the interface as a bundle of operations over an abstract limiter state `α`.
`newLimiter` stands for the closure `rb.newLimiterFunc(rb.maxRequests,
rb.window)`.  The ristretto cache is modelled as an association list keyed by
the limiter key; `cacheSet` overwrites an existing entry or appends. -/

structure RateEvent where
  brokerID : String
  event : String
  timestamp : Int
  key : String
  deriving Repr, DecidableEq

/-- `RequestAccepted`, the only event kind. -/
def requestAccepted : String := "REQUEST_ACCEPTED"

structure LimiterOps (α : Type) where
  newLimiter : α
  accept : α → Int → α
  tryAcceptOp : α → Int → Bool × α
  limitDetails : α → Nat × Int

def cacheSet {α : Type} (cache : List (String × α)) (k : String) (v : α) :
    List (String × α) :=
  match cache with
  | [] => [(k, v)]
  | (k', v') :: rest =>
    if k' = k then (k, v) :: rest else (k', v') :: cacheSet rest k v

/-- `RateBroker.brokerHandleFunc`: drop own messages, drop messages whose
timestamp is `Before now - window`, otherwise get-or-create the key's limiter
and `Accept` the message's timestamp (the remote instant, not `now`). -/
def brokerHandleFunc {α : Type} (ops : LimiterOps α) (selfId : String)
    (window now : Int) (cache : List (String × α)) (msg : RateEvent) :
    List (String × α) :=
  if msg.brokerID = selfId then cache
  else if msg.timestamp < now - window then cache
  else
    match List.lookup msg.key cache with
    | some lim => cacheSet cache msg.key (ops.accept lim msg.timestamp)
    | none => cacheSet cache msg.key (ops.accept ops.newLimiter msg.timestamp)

/-- `RateBroker.TryAccept`: get-or-create the limiter (a miss stores the new
limiter in the cache), read its `LimitDetails`, ask it `TryAccept(now)`;
deny immediately when it denies, otherwise publish an event when a broker is
configured — any publish error is only logged — and return `true`.
`publish` abstracts `publishEvent`'s outcome (`some e` is an error);
the last component collects the error log. -/
def rbTryAccept {α : Type} (ops : LimiterOps α) (selfId : String)
    (cache : List (String × α)) (key : String) (now : Int)
    (brokerPresent : Bool) (publish : RateEvent → Option String) :
    Bool × (Nat × Int) × List (String × α) × List String :=
  let lim := (List.lookup key cache).getD ops.newLimiter
  let details := ops.limitDetails lim
  let res := ops.tryAcceptOp lim now
  let cache' := cacheSet cache key res.2
  if res.1 then
    if brokerPresent then
      match publish ⟨selfId, requestAccepted, now, key⟩ with
      | some e => (true, details, cache', ["error publishing message: " ++ e])
      | none => (true, details, cache', [])
    else (true, details, cache', [])
  else (false, details, cache', [])

/-! ## Claim C5 -/

/-- Claim C5: the consumer handler mutates no counter for an event carrying
the engine's own broker id, mutates no counter for an event older than
`now - window`, and otherwise stores, under the event's key, the result of
`Accept`ing the event's own remote timestamp (never the local clock reading
`now`) on the cached — or freshly created — limiter. -/
theorem consumer_handler_spec {α : Type} (ops : LimiterOps α)
    (selfId : String) (window now : Int) (cache : List (String × α))
    (msg : RateEvent) :
    (msg.brokerID = selfId →
      brokerHandleFunc ops selfId window now cache msg = cache) ∧
    (msg.timestamp < now - window →
      brokerHandleFunc ops selfId window now cache msg = cache) ∧
    (msg.brokerID ≠ selfId → ¬ msg.timestamp < now - window →
      brokerHandleFunc ops selfId window now cache msg =
        cacheSet cache msg.key
          (ops.accept ((List.lookup msg.key cache).getD ops.newLimiter)
            msg.timestamp)) := by
  refine ⟨fun hself => ?_, fun hstale => ?_, fun hself hstale => ?_⟩
  · unfold brokerHandleFunc
    rw [if_pos hself]
  · unfold brokerHandleFunc
    by_cases hself : msg.brokerID = selfId
    · rw [if_pos hself]
    · rw [if_neg hself, if_pos hstale]
  · unfold brokerHandleFunc
    rw [if_neg hself, if_neg hstale]
    match List.lookup msg.key cache with
    | some lim => rfl
    | none => rfl

/-- The concrete limiter interface the default configuration uses is the one
from `limiter/ring.go`; the witness instantiates C5 with the heap variant
(capacity 2, window 50), whose `Accept` keeps the model total. -/
def heapOps : LimiterOps HeapLimiter :=
  ⟨HeapLimiter.new 2 50, HeapLimiter.accept, HeapLimiter.tryAccept,
   fun hl => (hl.size, hl.window)⟩

/-- Witness for C5 at concrete inputs: a remote event (`broker b`, key
`user1`, remote timestamp 60) processed at local time 100 with window 50
creates the counter and records 60 — the remote instant, not 100. -/
theorem consumer_handler_spec_witness :
    brokerHandleFunc heapOps "a" 50 100 []
      ⟨"b", requestAccepted, 60, "user1"⟩ =
      [("user1", (⟨2, 50, [60]⟩ : HeapLimiter))] := by
  have h := (consumer_handler_spec heapOps "a" 50 100 []
      ⟨"b", requestAccepted, 60, "user1"⟩).2.2 (by decide) (by decide)
  rw [h]
  rfl

/-! ## Claim C6 -/

/-- Claim C6: for every key, cache state, broker configuration and publish
outcome, the boolean `RateBroker.TryAccept` returns is exactly the local
counter's `TryAccept(now)` decision; a publish error (or the absence of a
broker) never changes it. -/
theorem decision_independent_of_publish {α : Type} (ops : LimiterOps α)
    (selfId : String) (cache : List (String × α)) (key : String) (now : Int)
    (brokerPresent : Bool) (publish : RateEvent → Option String) :
    (rbTryAccept ops selfId cache key now brokerPresent publish).1 =
      (ops.tryAcceptOp ((List.lookup key cache).getD ops.newLimiter) now).1 := by
  unfold rbTryAccept
  by_cases h : (ops.tryAcceptOp ((List.lookup key cache).getD ops.newLimiter) now).1
  · simp only [h, if_true]
    by_cases hb : brokerPresent
    · simp only [hb, if_true]
      match publish ⟨selfId, requestAccepted, now, key⟩ with
      | some e => rfl
      | none => rfl
    · simp [hb]
  · simp [h]

/-! ## `TryAcceptWithInfo` on the ring (`limiter/token_test.go` ring variant)

This `RingLimiter` variant shares the ring state modelled above (its extra
`len` field is written but never read by these functions, so it is not
modelled).  Field order of `RateLimitInfo` follows `limiter/limiter.go`:
`Remaining`, `Reset`, `Limit`, `Window`; `getRateLimitInfo` never assigns
`Window`, so it stays at Go's zero value. -/

structure RateLimitInfo where
  remaining : Nat
  reset : Int
  limit : Nat
  window : Int
  deriving Repr, DecidableEq

/-- `RingLimiter.calculateRemaining`: starting at the cursor, count the
consecutive slots that are nil or hold a timestamp `Before oldestAllowed`,
stopping at the first in-window slot or after one full circle. -/
def staleRun (window now : Int) : List (Option Int) → Nat
  | [] => 0
  | none :: rest => staleRun window now rest + 1
  | some ts :: rest =>
    if ts < now - window then staleRun window now rest + 1 else 0

/-- `RingLimiter.getRateLimitInfo`: if the cursor slot holds a timestamp
`After now - window`, report `remaining = 0` and `reset = cursor + window -
now`; otherwise report `remaining = calculateRemaining` and `reset = 0`.
Reads `rl.ring.Value`, so a nil ring panics (`none`). -/
def RingLimiter.getRateLimitInfo (rl : RingLimiter) (now : Int) :
    Option RateLimitInfo :=
  match rl.slots with
  | [] => none
  | some ts :: _ =>
    if now - rl.window < ts then some ⟨0, ts + rl.window - now, rl.size, 0⟩
    else some ⟨staleRun rl.window now rl.slots, 0, rl.size, 0⟩
  | none :: _ => some ⟨staleRun rl.window now rl.slots, 0, rl.size, 0⟩

/-- `RingLimiter.TryAcceptWithInfo`: compute the info; when `remaining > 0`
accept the request and return the info with `remaining` decremented, else
deny and return the info unchanged. -/
def RingLimiter.tryAcceptWithInfo (rl : RingLimiter) (now : Int) :
    Option (Bool × RateLimitInfo × RingLimiter) :=
  match rl.getRateLimitInfo now with
  | none => none
  | some info =>
    if 0 < info.remaining then
      match rl.accept now with
      | none => none
      | some rl' => some (true, { info with remaining := info.remaining - 1 }, rl')
    else some (false, info, rl)

/-- Modelled from the spec's words, for comparison (claim C7): `remaining
computation (for info): count of slots whose timestamp is empty or
< (t − W)` — over all slots of the ring. -/
def specRemainingAllSlots (window now : Int) (slots : List (Option Int)) : Nat :=
  (slots.filter (fun s =>
    match s with
    | none => true
    | some ts => decide (ts < now - window))).length

/-! ## Claim C7 -/

/-- Claim C7 counterexample: the ring state `[0, 10, 1]` (cursor first,
capacity 3, window 5) is reachable from a fresh ring by accepting at times
0, 10, 1.  At `t = 12` the spec's count of empty-or-stale slots is 2 (slots
0 and 1), but `TryAcceptWithInfo 12` accepts and returns `remaining = 0`:
the code counts only the consecutive stale run at the cursor (length 1) and
then decrements it for the accepted request. -/
theorem info_remaining_counterexample :
    (((RingLimiter.new 3 5).accept 0).bind
        (fun s => (s.accept 10).bind (fun s => s.accept 1))) =
      some ⟨3, 5, [some 0, some 10, some 1]⟩ ∧
    (⟨3, 5, [some 0, some 10, some 1]⟩ : RingLimiter).tryAcceptWithInfo 12 =
      some (true, ⟨0, 0, 3, 0⟩, ⟨3, 5, [some 10, some 1, some 12]⟩) ∧
    specRemainingAllSlots 5 12 [some 0, some 10, some 1] = 2 ∧
    (0 : Nat) ≠ 2 := by decide

/-- Claim C7 amended: on a ring with at least one slot, `TryAcceptWithInfo t`
returns info whose `remaining` is 0 when the request is denied and, when it
is accepted, one less than the length of the consecutive run of slots
starting at the cursor that are empty or hold timestamps `< t - window`
(not the count of all such slots); the request is accepted exactly when that
run is nonempty; `reset` is `(cursor timestamp + window) - t` when the
cursor slot holds a timestamp `> t - window` (in which case the request is
denied), and 0 otherwise. -/
theorem tryAcceptWithInfo_run_spec (rl : RingLimiter) (now : Int)
    (h : rl.slots ≠ []) :
    (∀ ts, rl.slots.head? = some (some ts) → now - rl.window < ts →
      rl.tryAcceptWithInfo now =
        some (false, ⟨0, ts + rl.window - now, rl.size, 0⟩, rl)) ∧
    ((∀ ts, rl.slots.head? = some (some ts) → ts ≤ now - rl.window) →
      (0 < staleRun rl.window now rl.slots →
        rl.tryAcceptWithInfo now =
          some (true, ⟨staleRun rl.window now rl.slots - 1, 0, rl.size, 0⟩,
            { rl with slots := rl.slots.tail ++ [some now] })) ∧
      (staleRun rl.window now rl.slots = 0 →
        rl.tryAcceptWithInfo now = some (false, ⟨0, 0, rl.size, 0⟩, rl))) := by
  match hslots : rl.slots with
  | [] => exact absurd hslots h
  | none :: rest =>
    refine ⟨fun ts hts => by simp at hts, fun _ => ⟨fun hrun => ?_, fun hrun => ?_⟩⟩
    · unfold RingLimiter.tryAcceptWithInfo RingLimiter.getRateLimitInfo
        RingLimiter.accept
      rw [hslots]
      simp only [staleRun] at hrun ⊢
      simp [hrun]
    · simp [staleRun] at hrun
  | some ts0 :: rest =>
    refine ⟨fun ts hts hin => ?_, fun hout => ⟨fun hrun => ?_, fun hrun => ?_⟩⟩
    · have hts0 : ts = ts0 := by
        simp at hts
        omega
      subst hts0
      unfold RingLimiter.tryAcceptWithInfo RingLimiter.getRateLimitInfo
      rw [hslots]
      simp [hin]
    · have hts0 : ts0 ≤ now - rl.window := hout ts0 (by rfl)
      unfold RingLimiter.tryAcceptWithInfo RingLimiter.getRateLimitInfo
        RingLimiter.accept
      rw [hslots]
      have hnin : ¬ now - rl.window < ts0 := by omega
      simp only [staleRun, hnin, if_neg, if_false] at hrun ⊢
      simp [hrun, hnin]
    · have hts0 : ts0 ≤ now - rl.window := hout ts0 (by rfl)
      have hnin : ¬ now - rl.window < ts0 := by omega
      have hcond : ¬ ts0 < now - rl.window := by
        by_contra hc
        rw [staleRun, if_pos hc] at hrun
        omega
      have hz : staleRun rl.window now (some ts0 :: rest) = 0 := by
        rw [staleRun, if_neg hcond]
      unfold RingLimiter.tryAcceptWithInfo RingLimiter.getRateLimitInfo
      rw [hslots]
      simp [hnin, hz]

/-- Witness for the amended C7 at a concrete input: a full one-slot ring
holding 5 (window 10) at time 7 is denied with `remaining = 0` and
`reset = 5 + 10 - 7 = 8`. -/
theorem tryAcceptWithInfo_run_spec_witness :
    (⟨1, 10, [some 5]⟩ : RingLimiter).tryAcceptWithInfo 7 =
      some (false, ⟨0, 8, 1, 0⟩, ⟨1, 10, [some 5]⟩) := by
  have h := (tryAcceptWithInfo_run_spec ⟨1, 10, [some 5]⟩ 7 (by simp)).1 5
    (by rfl) (by decide)
  rw [h]
  decide

/-! ## Publisher flush loop (`msgbroker.go`, `StartPublisher`)

One iteration of the flush loop: block until a first event arrives, then run
`for i := 0; i < batchSize; i++` pulling further events, where an empty
channel sets `i = batchSize` to leave the loop.  The channel is modelled by
the list of events available this iteration; an empty list means the
blocking receive never fires (no batch is formed). -/

def batchSize : Nat := 100

/-- The inner `for i := 0; i < batchSize; i++` drain: each iteration either
receives an available event or, on an empty channel, stops. -/
def drainExtra {γ : Type} : Nat → List γ → List γ × List γ
  | 0, q => ([], q)
  | _ + 1, [] => ([], [])
  | n + 1, e :: q => ((drainExtra n q).1.cons e, (drainExtra n q).2)

/-- One flush-loop iteration: the blocking receive takes the first event,
the drain loop gathers what is already available, and the result is the
`RateMessage` batch plus the events still queued. -/
def gatherBatch (queue : List RateEvent) : Option (List RateEvent × List RateEvent) :=
  match queue with
  | [] => none
  | e :: q => some ((drainExtra batchSize q).1.cons e, (drainExtra batchSize q).2)

theorem drainExtra_eq {γ : Type} :
    ∀ (n : Nat) (q : List γ), drainExtra n q = (q.take n, q.drop n) := by
  intro n
  induction n with
  | zero => intro q; rfl
  | succ m ih =>
    intro q
    match q with
    | [] => rfl
    | e :: rest =>
      unfold drainExtra
      rw [ih rest]
      rfl

/-! ## Claim C8 -/

/-- Claim C8 counterexample: with 101 events already available, one flush
iteration packages all 101 of them into a single batch — the drain loop
admits up to `batchSize` extra events after the first one, not
`batchSize - 1`, so a batch can exceed the claimed bound of 100. -/
theorem publisher_batch_counterexample :
    (gatherBatch (List.replicate 101 ⟨"a", requestAccepted, 0, "k"⟩)).map
        (fun p => p.1.length) = some 101 ∧
    ¬ (101 ≤ 100) := by decide

/-- Claim C8 amended: every batch assembled by the flush loop contains at
least 1 and at most `batchSize + 1 = 101` events: each iteration takes the
first event without delaying it and then drains up to `batchSize` (not
`batchSize − 1`) additional events that are already available, never
blocking for more. -/
theorem publisher_batch_bounds (queue : List RateEvent) (h : queue ≠ []) :
    gatherBatch queue =
      some (queue.take (batchSize + 1), queue.drop (batchSize + 1)) ∧
    1 ≤ (queue.take (batchSize + 1)).length ∧
    (queue.take (batchSize + 1)).length ≤ batchSize + 1 := by
  match queue with
  | [] => exact absurd rfl h
  | e :: q =>
    refine ⟨?_, by simp, List.length_take_le (batchSize + 1) (e :: q)⟩
    show some ((drainExtra batchSize q).1.cons e, (drainExtra batchSize q).2) = _
    rw [drainExtra_eq]
    rfl

/-- Witness for the amended C8: a queue holding exactly one event yields the
batch of that one event and an empty remainder. -/
theorem publisher_batch_bounds_witness :
    gatherBatch [(⟨"a", requestAccepted, 0, "k"⟩ : RateEvent)] =
      some ([(⟨"a", requestAccepted, 0, "k"⟩ : RateEvent)], []) ∧
    (1 : Nat) ≤ 1 := by
  have h := publisher_batch_bounds [⟨"a", requestAccepted, 0, "k"⟩] (by simp)
  exact ⟨h.1, le_refl 1⟩

/-! ## Offset clock (`ratebroker.go`, `RateBroker.Now`)

`rb.Now()` with an NTP server configured: when the cached `ntp.Response` is
absent or older than one minute it queries the server; on error it logs and
returns the bare `time.Now()`; on success it caches the response; finally it
returns `time.Now().Add(ClockOffset)` from the cached response.  `sysNow`
models `time.Now()`, `queryResult` the outcome of `ntp.Query` (`none` is a
failure); the second component of the result is the cache afterwards. -/

structure NtpResponse where
  time : Int
  clockOffset : Int
  deriving Repr, DecidableEq

def minuteNs : Int := 60000000000

def rbNow (ntpServer : String) (sysNow : Int) (ntpClient : Option NtpResponse)
    (queryResult : Option NtpResponse) : Int × Option NtpResponse :=
  if ntpServer ≠ "" then
    if (match ntpClient with
        | none => true
        | some r => decide (minuteNs < sysNow - r.time)) then
      match queryResult with
      | none => (sysNow, ntpClient)
      | some resp => (sysNow + resp.clockOffset, some resp)
    else
      ((match ntpClient with
        | some r => sysNow + r.clockOffset
        | none => sysNow), ntpClient)
  else (sysNow, ntpClient)

/-! ## Claim C9 -/

/-- Claim C9 counterexample: with a cached response carrying delta 5 that is
due for refresh (age 120 s) and a failing query, `Now()` returns the raw
system clock 120000000000 — not the offset-adjusted 120000000005 the claim
requires. -/
theorem ntp_failure_counterexample :
    rbNow "pool.ntp.org" 120000000000 (some ⟨0, 5⟩) none =
      (120000000000, some ⟨0, 5⟩) ∧
    (120000000000 : Int) ≠ 120000000000 + 5 := by decide

/-- Claim C9 amended: when a refresh attempt fails (and one is attempted —
the cached response is absent or older than one minute), `Now()` returns the
raw unadjusted system clock for that call, logging the failure at error
level rather than warn; the cached response and its delta are left in place
but not applied.  Offset-adjusted time is returned exactly when the cached
response is fresh (at most one minute old) or the refresh succeeds. -/
theorem rbNow_failure_behaviour (server : String) (sysNow : Int)
    (client : Option NtpResponse) (hs : server ≠ "") :
    (∀ r, client = some r → minuteNs < sysNow - r.time →
      rbNow server sysNow client none = (sysNow, client)) ∧
    (client = none → rbNow server sysNow client none = (sysNow, none)) ∧
    (∀ resp, (client = none ∨ ∃ r, client = some r ∧ minuteNs < sysNow - r.time) →
      rbNow server sysNow client (some resp) =
        (sysNow + resp.clockOffset, some resp)) ∧
    (∀ r q, client = some r → ¬ minuteNs < sysNow - r.time →
      rbNow server sysNow client q = (sysNow + r.clockOffset, client)) := by
  refine ⟨fun r hr hold => ?_, fun hnone => ?_, fun resp hq => ?_, fun r q hr hfresh => ?_⟩
  · subst hr
    unfold rbNow
    rw [if_pos hs]
    simp [hold]
  · subst hnone
    unfold rbNow
    rw [if_pos hs]
    simp
  · unfold rbNow
    rw [if_pos hs]
    rcases hq with hnone | ⟨r, hr, hold⟩
    · subst hnone
      simp
    · subst hr
      simp [hold]
  · subst hr
    unfold rbNow
    rw [if_pos hs]
    simp [hfresh]

/-- Witness for the amended C9 at concrete inputs: server configured, system
clock at 120 s, cached response of age 120 s with delta 5, failing query —
the call returns the raw clock and keeps the cache. -/
theorem rbNow_failure_behaviour_witness :
    rbNow "pool.ntp.org" 120000000000 (some ⟨0, 5⟩) none =
      (120000000000, some ⟨0, 5⟩) :=
  (rbNow_failure_behaviour "pool.ntp.org" 120000000000 (some ⟨0, 5⟩)
    (by decide)).1 ⟨0, 5⟩ rfl (by decide)

/-! ## Wire format (`msgbroker.go` with Go `encoding/json` and `time`)

The publisher serializes the batch with `json.Marshal(msg.Events)` and the
consumer reads it back with `json.Unmarshal` into `[]RateEvent`; the
`timestamp` field goes through `time.Time.MarshalJSON` (RFC 3339 with
nanoseconds, year checked against the RFC's 4-digit range) and
`time.Time.UnmarshalJSON` (`time.Parse` of RFC 3339).  The stdlib calendar
arithmetic below follows `time.absDate` / `time.Date`; instants are modelled
in UTC (a fixed non-zero zone offset would shift the civil fields and be
undone identically by the parser), and the calendar embedding counts days
from January 1 of year 1 — Go's internal absolute epoch — so it covers years
from 1 upward (Go additionally admits year 0). -/

/-- `time.daysBefore`: cumulative days in a non-leap year before month
`m + 1` (0-based table as in the Go source, extended with the 365 total). -/
def daysBefore : Nat → Nat
  | 0 => 0
  | 1 => 31
  | 2 => 59
  | 3 => 90
  | 4 => 120
  | 5 => 151
  | 6 => 181
  | 7 => 212
  | 8 => 243
  | 9 => 273
  | 10 => 304
  | 11 => 334
  | _ => 365

/-- `time.isLeap`. -/
def isLeap (y : Nat) : Bool :=
  y % 4 == 0 && (y % 100 != 0 || y % 400 == 0)

/-- `time.daysIn(m, year)`: length of month `m`. -/
def daysIn (leap : Bool) (m : Nat) : Nat :=
  if m = 2 ∧ leap then 29 else daysBefore m - daysBefore (m - 1)

/-- The year/day-of-year part of `time.absDate`: cut 400-, 100-, 4- and
1-year cycles off the day count (days since 0001-01-01), with the Go
`n -= n >> 2` corrections that keep the century and year counts at 3 on the
last day of a long cycle.  Returns the 1-based year and the 0-based day of
year. -/
def absYearYday (d : Nat) : Nat × Nat :=
  let n400 := d / 146097
  let r1 := d % 146097
  let n100 := r1 / 36524 - r1 / 36524 / 4
  let r2 := r1 - 36524 * n100
  let n4 := r2 / 1461
  let r3 := r2 % 1461
  let n1 := r3 / 365 - r3 / 365 / 4
  let yday := r3 - 365 * n1
  (1 + 400 * n400 + 100 * n100 + 4 * n4 + n1, yday)

/-- The month/day part of `time.absDate` (`full = true`): special-case the
leap day, collapse a post-leap-day index onto the non-leap table, estimate
the month as `day / 31` and correct by one against `daysBefore`. -/
def monthDayFromYday (leap : Bool) (yday : Nat) : Nat × Nat :=
  if leap = true ∧ yday = 59 then (2, 29)
  else
    let day := if leap = true ∧ 59 < yday then yday - 1 else yday
    let m0 := day / 31
    if daysBefore (m0 + 1) ≤ day then (m0 + 2, day - daysBefore (m0 + 1) + 1)
    else (m0 + 1, day - daysBefore m0 + 1)

/-- `time.absDate(d, full = true)` over days since 0001-01-01. -/
def absDate (d : Nat) : Nat × Nat × Nat :=
  ((absYearYday d).1, monthDayFromYday (isLeap (absYearYday d).1) (absYearYday d).2)

/-- 0-based day of year of a civil date, as `time.Date` accumulates it:
`daysBefore[month-1]`, plus the leap day once past February, plus
`day - 1`. -/
def dayOfYear (leap : Bool) (month day : Nat) : Nat :=
  daysBefore (month - 1) + (if leap = true ∧ 3 ≤ month then 1 else 0) + (day - 1)

/-- `time.Date`'s day count since 0001-01-01 for a civil date:
`365*(y-1) + (y-1)/4 - (y-1)/100 + (y-1)/400` days for the whole years,
plus the day of year. -/
def daysFromCivil (year month day : Nat) : Nat :=
  365 * (year - 1) + (year - 1) / 4 - (year - 1) / 100 + (year - 1) / 400 +
    dayOfYear (isLeap year) month day

theorem isLeap_iff (y : Nat) :
    isLeap y = true ↔ (y % 4 = 0 ∧ (¬ y % 100 = 0 ∨ y % 400 = 0)) := by
  simp [isLeap]

/-! Named forms of the intermediate values of `absYearYday`, used to keep
the arithmetic goals below manageable; `absYearYday_fst`/`absYearYday_snd`
record that they agree definitionally with the let-chain. -/

def ayNum400 (d : Nat) : Nat := d / 146097

def ayR1 (d : Nat) : Nat := d % 146097

def ayN100 (d : Nat) : Nat := ayR1 d / 36524 - ayR1 d / 36524 / 4

def ayR2 (d : Nat) : Nat := ayR1 d - 36524 * ayN100 d

def ayN4 (d : Nat) : Nat := ayR2 d / 1461

def ayR3 (d : Nat) : Nat := ayR2 d % 1461

def ayN1 (d : Nat) : Nat := ayR3 d / 365 - ayR3 d / 365 / 4

def ayYday (d : Nat) : Nat := ayR3 d - 365 * ayN1 d

theorem absYearYday_fst (d : Nat) :
    (absYearYday d).1 =
      1 + 400 * ayNum400 d + 100 * ayN100 d + 4 * ayN4 d + ayN1 d := rfl

theorem absYearYday_snd (d : Nat) : (absYearYday d).2 = ayYday d := rfl

/-- The cycle decomposition is exact: the whole-year prefix plus the day of
year reproduces the day count, the day of year is within the year, and the
year is at least 1. -/
theorem absYearYday_spec (d : Nat) :
    365 * ((absYearYday d).1 - 1) + ((absYearYday d).1 - 1) / 4 -
        ((absYearYday d).1 - 1) / 100 + ((absYearYday d).1 - 1) / 400 +
        (absYearYday d).2 = d ∧
    (absYearYday d).2 < (if isLeap (absYearYday d).1 then 366 else 365) ∧
    1 ≤ (absYearYday d).1 := by
  rw [absYearYday_fst, absYearYday_snd]
  have h0a : d = 146097 * ayNum400 d + ayR1 d := by
    unfold ayNum400 ayR1
    omega
  have h0b : ayR1 d ≤ 146096 := by
    unfold ayR1
    omega
  have h1 : ayN100 d ≤ 3 := by
    unfold ayN100
    omega
  have h2a : ayR1 d = 36524 * ayN100 d + ayR2 d := by
    unfold ayR2 ayN100
    omega
  have h2b : ayR2 d ≤ 36524 := by
    unfold ayR2 ayN100
    omega
  have h2c : ayR2 d = 36524 → ayN100 d = 3 := by
    unfold ayR2 ayN100
    omega
  have h3a : ayR2 d = 1461 * ayN4 d + ayR3 d := by
    unfold ayN4 ayR3
    omega
  have h3b : ayR3 d ≤ 1460 := by
    unfold ayR3
    omega
  have h4 : ayN4 d ≤ 24 := by
    unfold ayN4
    omega
  have h5 : ayN1 d ≤ 3 := by
    unfold ayN1
    omega
  have h6a : ayR3 d = 365 * ayN1 d + ayYday d := by
    unfold ayYday ayN1
    omega
  have h6b : ayYday d ≤ 364 ∨ (ayR3 d = 1460 ∧ ayN1 d = 3 ∧ ayYday d = 365) := by
    unfold ayYday ayN1
    omega
  have hY : 1 + 400 * ayNum400 d + 100 * ayN100 d + 4 * ayN4 d + ayN1 d - 1 =
      400 * ayNum400 d + 100 * ayN100 d + 4 * ayN4 d + ayN1 d := by omega
  refine ⟨?_, ?_, by omega⟩
  · rw [hY]
    have e1 : (400 * ayNum400 d + 100 * ayN100 d + 4 * ayN4 d + ayN1 d) / 4 =
        100 * ayNum400 d + 25 * ayN100 d + ayN4 d := by omega
    have e2 : (400 * ayNum400 d + 100 * ayN100 d + 4 * ayN4 d + ayN1 d) / 100 =
        4 * ayNum400 d + ayN100 d := by omega
    have e3 : (400 * ayNum400 d + 100 * ayN100 d + 4 * ayN4 d + ayN1 d) / 400 =
        ayNum400 d := by omega
    rw [e1, e2, e3]
    omega
  · by_cases hleap : isLeap (1 + 400 * ayNum400 d + 100 * ayN100 d +
        4 * ayN4 d + ayN1 d) = true
    · rw [if_pos hleap]
      omega
    · rw [if_neg hleap]
      rw [isLeap_iff] at hleap
      rcases h6b with hle | ⟨hr3, hn1, hyd⟩
      · omega
      · exact absurd (by omega) hleap

/-- The month/day split undoes the day-of-year accumulation, and the
resulting month and day are valid. -/
theorem monthDayFromYday_spec (leap : Bool) (yday : Nat)
    (h : yday < if leap then 366 else 365) :
    dayOfYear leap (monthDayFromYday leap yday).1 (monthDayFromYday leap yday).2 =
      yday ∧
    1 ≤ (monthDayFromYday leap yday).1 ∧ (monthDayFromYday leap yday).1 ≤ 12 ∧
    1 ≤ (monthDayFromYday leap yday).2 ∧
    (monthDayFromYday leap yday).2 ≤ daysIn leap (monthDayFromYday leap yday).1 := by
  revert h
  revert yday
  cases leap
  · set_option maxRecDepth 2000 in decide
  · set_option maxRecDepth 2000 in decide

/-- Round trip of the stdlib calendar: `time.Date`'s day count inverts
`time.absDate`, and the civil fields that come out are in range. -/
theorem daysFromCivil_absDate (d : Nat) :
    daysFromCivil (absDate d).1 (absDate d).2.1 (absDate d).2.2 = d ∧
    1 ≤ (absDate d).1 ∧
    1 ≤ (absDate d).2.1 ∧ (absDate d).2.1 ≤ 12 ∧
    1 ≤ (absDate d).2.2 ∧
    (absDate d).2.2 ≤ daysIn (isLeap (absDate d).1) (absDate d).2.1 := by
  obtain ⟨hsum, hbound, hyear⟩ := absYearYday_spec d
  obtain ⟨hday, hm1, hm2, hd1, hd2⟩ :=
    monthDayFromYday_spec (isLeap (absYearYday d).1) (absYearYday d).2 hbound
  have habs1 : (absDate d).1 = (absYearYday d).1 := rfl
  have habs2 : (absDate d).2 =
      monthDayFromYday (isLeap (absYearYday d).1) (absYearYday d).2 := rfl
  rw [habs1, habs2]
  refine ⟨?_, hyear, hm1, hm2, hd1, hd2⟩
  unfold daysFromCivil
  rw [hday]
  exact hsum

/-! ### RFC 3339 text (`time.AppendFormat` with `time.RFC3339Nano`, and
`time.Parse`)

Go renders each numeric field right-to-left by repeated `% 10` / `/ 10`
(`appendInt`, `formatNano`); `lowDigits` is that little-endian digit list and
`padDigits` the emitted zero-padded field.  `RFC3339Nano` drops the
fractional part when it is zero and trims its trailing zeros otherwise.
Times are rendered in UTC (suffix `Z`). -/

def digitChar (n : Nat) : Char := Char.ofNat (48 + n)

def lowDigits : Nat → Nat → List Char
  | 0, _ => []
  | w + 1, n => digitChar (n % 10) :: lowDigits w (n / 10)

def padDigits (w n : Nat) : List Char := (lowDigits w n).reverse

def trimTrailingZeros (l : List Char) : List Char :=
  (l.reverse.dropWhile (fun c => c == '0')).reverse

def fracChars (nanos : Nat) : List Char :=
  if nanos = 0 then [] else '.' :: trimTrailingZeros (padDigits 9 nanos)

def rfc3339Chars (y mo dd hh mi ss nanos : Nat) : List Char :=
  padDigits 4 y ++ '-' :: padDigits 2 mo ++ '-' :: padDigits 2 dd ++
  'T' :: padDigits 2 hh ++ ':' :: padDigits 2 mi ++ ':' :: padDigits 2 ss ++
  fracChars nanos ++ ['Z']

def toDigit (c : Char) : Option Nat :=
  if 48 ≤ c.toNat ∧ c.toNat ≤ 57 then some (c.toNat - 48) else none

def twoDigits (c1 c2 : Char) : Option Nat := do
  let d1 ← toDigit c1
  let d2 ← toDigit c2
  pure (10 * d1 + d2)

def fourDigits (c1 c2 c3 c4 : Char) : Option Nat := do
  let d1 ← toDigit c1
  let d2 ← toDigit c2
  let d3 ← toDigit c3
  let d4 ← toDigit c4
  pure (1000 * d1 + 100 * d2 + 10 * d3 + d4)

/-- Fraction consumer of the parser: digits accumulate until the `Z`
terminator, which must close the input; a fraction of `len` digits scales by
`10 ^ (9 - len)`. -/
def fracLoop : List Char → Nat → Nat → Option Nat
  | [], _, _ => none
  | c :: rest, acc, len =>
    if c = 'Z' then
      if rest = [] then
        if 1 ≤ len ∧ len ≤ 9 then some (acc * 10 ^ (9 - len)) else none
      else none
    else
      match toDigit c with
      | some dg => fracLoop rest (acc * 10 + dg) (len + 1)
      | none => none

/-- After the seconds field: either the bare `Z` terminator, or a `.`
followed by a nonempty fraction and the terminator. -/
def parseOffsetFrac : List Char → Option Nat
  | ['Z'] => some 0
  | '.' :: rest => fracLoop rest 0 0
  | _ => none

/-- `time.Parse` of an RFC 3339 UTC timestamp: fixed-position digit fields,
validation of the ranges (`month` 1–12, `day` against `daysIn`, `hour` ≤ 23,
minute and second ≤ 59), then the instant is rebuilt from the civil fields.
Years below 1 are outside the model's calendar (Go itself would accept
`0000`). -/
def parseRFC3339 (s : List Char) : Option Int :=
  match s with
  | y1 :: y2 :: y3 :: y4 :: '-' :: o1 :: o2 :: '-' :: d1 :: d2 :: 'T' ::
      h1 :: h2 :: ':' :: mi1 :: mi2 :: ':' :: s1 :: s2 :: rest => do
    let year ← fourDigits y1 y2 y3 y4
    let month ← twoDigits o1 o2
    let day ← twoDigits d1 d2
    let hour ← twoDigits h1 h2
    let minute ← twoDigits mi1 mi2
    let second ← twoDigits s1 s2
    let nanos ← parseOffsetFrac rest
    if 1 ≤ year ∧ 1 ≤ month ∧ month ≤ 12 ∧ 1 ≤ day ∧
        day ≤ daysIn (isLeap year) month ∧ hour ≤ 23 ∧ minute ≤ 59 ∧
        second ≤ 59 then
      some (((daysFromCivil year month day : Int) * 86400 +
        ((hour * 3600 + minute * 60 + second : Nat) : Int) - 62135596800) *
          1000000000 + (nanos : Int))
    else none
  | _ => none

/-- `time.Time.MarshalJSON`'s timestamp text: split the instant into Unix
seconds and nanoseconds, shift to Go's absolute epoch (0001-01-01, which is
62135596800 s before the Unix epoch), reject years outside the RFC 3339
range (Go checks `[0, 9999]`; the model's calendar starts at year 1), and
render the civil fields. -/
def marshalTimestamp (t : Int) : Option (List Char) :=
  if t + 62135596800000000000 < 0 then none
  else if (absDate ((t / 1000000000 + 62135596800).toNat / 86400)).1 ≤ 9999 then
    some (rfc3339Chars
      (absDate ((t / 1000000000 + 62135596800).toNat / 86400)).1
      (absDate ((t / 1000000000 + 62135596800).toNat / 86400)).2.1
      (absDate ((t / 1000000000 + 62135596800).toNat / 86400)).2.2
      ((t / 1000000000 + 62135596800).toNat % 86400 / 3600)
      ((t / 1000000000 + 62135596800).toNat % 86400 % 3600 / 60)
      ((t / 1000000000 + 62135596800).toNat % 86400 % 60)
      (t % 1000000000).toNat)
  else none

/-! ### Digit-level lemmas -/

theorem toDigit_digitChar : ∀ n ≤ 9, toDigit (digitChar n) = some n := by decide

theorem digitChar_ne_Z : ∀ n ≤ 9, ¬ digitChar n = 'Z' := by decide

theorem digitChar_beq_zero : ∀ n ≤ 9, (digitChar n == '0') = decide (n = 0) := by
  decide

theorem twoDigits_digits (a b : Nat) (ha : a ≤ 9) (hb : b ≤ 9) :
    twoDigits (digitChar a) (digitChar b) = some (10 * a + b) := by
  unfold twoDigits
  rw [toDigit_digitChar a ha, toDigit_digitChar b hb]
  rfl

theorem fourDigits_digits (a b c d : Nat) (ha : a ≤ 9) (hb : b ≤ 9)
    (hc : c ≤ 9) (hd : d ≤ 9) :
    fourDigits (digitChar a) (digitChar b) (digitChar c) (digitChar d) =
      some (1000 * a + 100 * b + 10 * c + d) := by
  unfold fourDigits
  rw [toDigit_digitChar a ha, toDigit_digitChar b hb, toDigit_digitChar c hc,
    toDigit_digitChar d hd]
  rfl

theorem rfc3339Chars_cons (y mo dd hh mi ss nanos : Nat) :
    rfc3339Chars y mo dd hh mi ss nanos =
      digitChar (y / 10 / 10 / 10 % 10) :: digitChar (y / 10 / 10 % 10) ::
      digitChar (y / 10 % 10) :: digitChar (y % 10) ::
      '-' :: digitChar (mo / 10 % 10) :: digitChar (mo % 10) ::
      '-' :: digitChar (dd / 10 % 10) :: digitChar (dd % 10) ::
      'T' :: digitChar (hh / 10 % 10) :: digitChar (hh % 10) ::
      ':' :: digitChar (mi / 10 % 10) :: digitChar (mi % 10) ::
      ':' :: digitChar (ss / 10 % 10) :: digitChar (ss % 10) ::
      (fracChars nanos ++ ['Z']) := rfl

/-! ### Fraction lemmas -/

theorem dropZeros_lowDigits : ∀ (w n : Nat), 1 ≤ n → n < 10 ^ w →
    ∃ k m, 1 ≤ k ∧ k ≤ w ∧ 1 ≤ m ∧ m < 10 ^ k ∧ n = m * 10 ^ (w - k) ∧
      (lowDigits w n).dropWhile (fun c => c == '0') = lowDigits k m := by
  intro w
  induction w with
  | zero =>
    intro n h1 h2
    omega
  | succ w ih =>
    intro n h1 h2
    by_cases h10 : n % 10 = 0
    · have hn10 : 1 ≤ n / 10 := by omega
      have hn10' : n / 10 < 10 ^ w := by
        rw [pow_succ] at h2
        omega
      obtain ⟨k, m, hk1, hkw, hm1, hmk, hfac, hdrop⟩ := ih (n / 10) hn10 hn10'
      refine ⟨k, m, hk1, by omega, hm1, hmk, ?_, ?_⟩
      · have : n = n / 10 * 10 := by omega
        rw [this, hfac]
        have : w + 1 - k = (w - k) + 1 := by omega
        rw [this, pow_succ]
        ring
      · show List.dropWhile _ (digitChar (n % 10) :: lowDigits w (n / 10)) = _
        rw [List.dropWhile_cons]
        rw [h10]
        rw [digitChar_beq_zero 0 (by omega)]
        simpa using hdrop
    · refine ⟨w + 1, n, by omega, le_refl _, h1, h2, by simp, ?_⟩
      show List.dropWhile _ (digitChar (n % 10) :: lowDigits w (n / 10)) = _
      rw [List.dropWhile_cons]
      rw [digitChar_beq_zero (n % 10) (by omega)]
      simp [h10]
      rfl

theorem fracLoop_lowDigits : ∀ (k m : Nat) (tail : List Char) (acc len : Nat),
    m < 10 ^ k →
    fracLoop ((lowDigits k m).reverse ++ tail) acc len =
      fracLoop tail (acc * 10 ^ k + m) (len + k) := by
  intro k
  induction k with
  | zero =>
    intro m tail acc len hm
    have : m = 0 := by omega
    subst this
    simp [lowDigits]
  | succ k ih =>
    intro m tail acc len hm
    have hstep : (lowDigits (k + 1) m).reverse ++ tail =
        (lowDigits k (m / 10)).reverse ++ (digitChar (m % 10) :: tail) := by
      show (digitChar (m % 10) :: lowDigits k (m / 10)).reverse ++ tail = _
      rw [List.reverse_cons, List.append_assoc]
      rfl
    rw [hstep]
    have hm10 : m / 10 < 10 ^ k := by
      rw [pow_succ] at hm
      omega
    rw [ih (m / 10) (digitChar (m % 10) :: tail) acc len hm10]
    have hne : ¬ digitChar (m % 10) = 'Z' := digitChar_ne_Z (m % 10) (by omega)
    have hacc : (acc * 10 ^ k + m / 10) * 10 + m % 10 =
        acc * 10 ^ (k + 1) + m := by
      rw [pow_succ]
      have hdm : m / 10 * 10 + m % 10 = m := by omega
      calc (acc * 10 ^ k + m / 10) * 10 + m % 10
          = acc * (10 ^ k * 10) + (m / 10 * 10 + m % 10) := by ring
        _ = acc * (10 ^ k * 10) + m := by rw [hdm]
    have hunfold : fracLoop (digitChar (m % 10) :: tail)
        (acc * 10 ^ k + m / 10) (len + k) =
        fracLoop tail ((acc * 10 ^ k + m / 10) * 10 + m % 10) (len + k + 1) := by
      rw [fracLoop]
      rw [if_neg hne, toDigit_digitChar (m % 10) (by omega)]
    rw [hunfold, hacc]
    have hlen : len + k + 1 = len + (k + 1) := by omega
    rw [hlen]

theorem parse_fracChars (ns : Nat) (h : ns ≤ 999999999) :
    parseOffsetFrac (fracChars ns ++ ['Z']) = some ns := by
  by_cases h0 : ns = 0
  · subst h0
    rfl
  · have h1 : 1 ≤ ns := by omega
    have h2 : ns < 10 ^ 9 := by norm_num; omega
    obtain ⟨k, m, hk1, hk9, hm1, hmk, hfac, hdrop⟩ :=
      dropZeros_lowDigits 9 ns h1 h2
    have hfc : fracChars ns = '.' :: (lowDigits k m).reverse := by
      unfold fracChars trimTrailingZeros padDigits
      rw [if_neg h0, List.reverse_reverse, hdrop]
    rw [hfc]
    show fracLoop ((lowDigits k m).reverse ++ ['Z']) 0 0 = some ns
    rw [fracLoop_lowDigits k m ['Z'] 0 0 hmk]
    simp only [Nat.zero_mul, Nat.zero_add]
    unfold fracLoop
    rw [if_pos rfl, if_pos rfl, if_pos (show 1 ≤ k ∧ k ≤ 9 by omega)]
    rw [hfac]

/-- Round trip of the stdlib timestamp codec: whenever `MarshalJSON`'s
formatter produces a string, `time.Parse` recovers the exact instant. -/
theorem parse_marshalTimestamp (t : Int) (s : List Char)
    (h : marshalTimestamp t = some s) : parseRFC3339 s = some t := by
  unfold marshalTimestamp at h
  split at h
  · exact absurd h (by simp)
  · rename_i hneg
    split at h
    · rename_i hy9999
      injection h with hs
      subst hs
      have hA0 : (0 : Int) ≤ t / 1000000000 + 62135596800 := by omega
      have hAint : (((t / 1000000000 + 62135596800).toNat : Int)) =
          t / 1000000000 + 62135596800 := Int.toNat_of_nonneg hA0
      have hNSint : (((t % 1000000000).toNat : Int)) = t % 1000000000 :=
        Int.toNat_of_nonneg (by omega)
      set A := (t / 1000000000 + 62135596800).toNat with hAdef
      set NS := (t % 1000000000).toNat with hNSdef
      have hNSle : NS ≤ 999999999 := by omega
      obtain ⟨hdays, hy1, hmo1, hmo12, hdd1, hdd2⟩ :=
        daysFromCivil_absDate (A / 86400)
      have hyle : (absDate (A / 86400)).1 ≤ 9999 := hy9999
      rw [rfc3339Chars_cons]
      have hY4 : fourDigits (digitChar ((absDate (A / 86400)).1 / 10 / 10 / 10 % 10))
          (digitChar ((absDate (A / 86400)).1 / 10 / 10 % 10))
          (digitChar ((absDate (A / 86400)).1 / 10 % 10))
          (digitChar ((absDate (A / 86400)).1 % 10)) =
          some (absDate (A / 86400)).1 := by
        rw [fourDigits_digits _ _ _ _ (by omega) (by omega) (by omega) (by omega)]
        congr 1
        omega
      have hMO2 : twoDigits (digitChar ((absDate (A / 86400)).2.1 / 10 % 10))
          (digitChar ((absDate (A / 86400)).2.1 % 10)) =
          some (absDate (A / 86400)).2.1 := by
        rw [twoDigits_digits _ _ (by omega) (by omega)]
        congr 1
        omega
      have hDD2 : twoDigits (digitChar ((absDate (A / 86400)).2.2 / 10 % 10))
          (digitChar ((absDate (A / 86400)).2.2 % 10)) =
          some (absDate (A / 86400)).2.2 := by
        have : (absDate (A / 86400)).2.2 ≤ 31 := by
          have h31 : daysIn (isLeap (absDate (A / 86400)).1) (absDate (A / 86400)).2.1 ≤ 31 := by
            unfold daysIn
            split
            · omega
            · interval_cases h : (absDate (A / 86400)).2.1 <;> simp [daysBefore]
          omega
        rw [twoDigits_digits _ _ (by omega) (by omega)]
        congr 1
        omega
      have hHH2 : twoDigits (digitChar (A % 86400 / 3600 / 10 % 10))
          (digitChar (A % 86400 / 3600 % 10)) = some (A % 86400 / 3600) := by
        rw [twoDigits_digits _ _ (by omega) (by omega)]
        congr 1
        omega
      have hMI2 : twoDigits (digitChar (A % 86400 % 3600 / 60 / 10 % 10))
          (digitChar (A % 86400 % 3600 / 60 % 10)) =
          some (A % 86400 % 3600 / 60) := by
        rw [twoDigits_digits _ _ (by omega) (by omega)]
        congr 1
        omega
      have hSS2 : twoDigits (digitChar (A % 86400 % 60 / 10 % 10))
          (digitChar (A % 86400 % 60 % 10)) = some (A % 86400 % 60) := by
        rw [twoDigits_digits _ _ (by omega) (by omega)]
        congr 1
        omega
      have hNSp : parseOffsetFrac (fracChars NS ++ ['Z']) = some NS :=
        parse_fracChars NS hNSle
      simp only [parseRFC3339, hY4, hMO2, hDD2, hHH2, hMI2, hSS2, hNSp,
        Option.bind_eq_bind, Option.some_bind]
      rw [if_pos ⟨hy1, hmo1, hmo12, hdd1, hdd2, by omega, by omega, by omega⟩]
      congr 1
      rw [hdays]
      have hsec : A % 86400 / 3600 * 3600 + A % 86400 % 3600 / 60 * 60 +
          A % 86400 % 60 = A % 86400 := by omega
      rw [hsec]
      omega
    · exact absurd h (by simp)

/-! ### JSON values (`encoding/json`, at the level of parsed values)

`Json` is the abstract syntax of the texts `encoding/json` reads and writes;
the textual layer below it (quoting, whitespace) is a bijection on this
domain and is not repeated here.  Go's object decoder matches struct tags
against member names (our objects carry each tag exactly once), ignores
unknown members, leaves absent fields at their zero values, and fails on a
type mismatch. -/

inductive Json where
  | null : Json
  | bool (b : Bool) : Json
  | num (n : Int) : Json
  | str (s : String) : Json
  | arr (elems : List Json) : Json
  | obj (fields : List (String × Json)) : Json

def jsonLookup (fields : List (String × Json)) (k : String) : Option Json :=
  match fields with
  | [] => none
  | (k', v) :: rest => if k' = k then some v else jsonLookup rest k

/-- `json.Marshal` of one `RateEvent`: a four-member object following the
struct tags `broker_id`, `event`, `timestamp`, `key` in declaration order;
the timestamp member errors out (propagating to the whole marshal) when the
year is outside the RFC 3339 range. -/
def RateEvent.marshalJson (e : RateEvent) : Option Json :=
  match marshalTimestamp e.timestamp with
  | none => none
  | some ts =>
    some (Json.obj [("broker_id", Json.str e.brokerID),
                    ("event", Json.str e.event),
                    ("timestamp", Json.str (String.mk ts)),
                    ("key", Json.str e.key)])

def decodeStringField (fields : List (String × Json)) (k : String) :
    Option String :=
  match jsonLookup fields k with
  | none => some ""
  | some (Json.str s) => some s
  | some _ => none

/-- Decoding a `time.Time` member: an absent member keeps the zero `Time`
(0001-01-01T00:00:00Z, i.e. −62135596800 s before the Unix epoch). -/
def decodeTimeField (fields : List (String × Json)) (k : String) : Option Int :=
  match jsonLookup fields k with
  | none => some (-62135596800000000000)
  | some (Json.str s) => parseRFC3339 s.data
  | some _ => none

def RateEvent.unmarshalJson : Json → Option RateEvent
  | Json.obj fields => do
    let b ← decodeStringField fields "broker_id"
    let ev ← decodeStringField fields "event"
    let ts ← decodeTimeField fields "timestamp"
    let k ← decodeStringField fields "key"
    pure ⟨b, ev, ts, k⟩
  | _ => none

/-- The publisher's batch serialization (`msgbroker.go`, `publish`):
`json.Marshal(msg.Events)` — the array of event objects stored under the
stream record's `events` field. -/
def publishEventsJson (events : List RateEvent) : Option Json :=
  match events.mapM RateEvent.marshalJson with
  | none => none
  | some js => some (Json.arr js)

/-- The consumer's deserialization (`msgbroker.go`, `Consume`):
`json.Unmarshal([]byte(events), &msg.Events)` into `[]RateEvent`. -/
def consumeEventsJson : Json → Option (List RateEvent)
  | Json.arr js => js.mapM RateEvent.unmarshalJson
  | _ => none

theorem unmarshal_marshalJson (e : RateEvent) (j : Json)
    (h : e.marshalJson = some j) : RateEvent.unmarshalJson j = some e := by
  unfold RateEvent.marshalJson at h
  split at h
  · exact absurd h (by simp)
  · rename_i ts hts
    injection h with hj
    subst hj
    have hb : decodeStringField
        [("broker_id", Json.str e.brokerID), ("event", Json.str e.event),
         ("timestamp", Json.str (String.mk ts)), ("key", Json.str e.key)]
        "broker_id" = some e.brokerID := rfl
    have hev : decodeStringField
        [("broker_id", Json.str e.brokerID), ("event", Json.str e.event),
         ("timestamp", Json.str (String.mk ts)), ("key", Json.str e.key)]
        "event" = some e.event := rfl
    have hk : decodeStringField
        [("broker_id", Json.str e.brokerID), ("event", Json.str e.event),
         ("timestamp", Json.str (String.mk ts)), ("key", Json.str e.key)]
        "key" = some e.key := rfl
    have hts' : decodeTimeField
        [("broker_id", Json.str e.brokerID), ("event", Json.str e.event),
         ("timestamp", Json.str (String.mk ts)), ("key", Json.str e.key)]
        "timestamp" = some e.timestamp := by
      show parseRFC3339 (String.mk ts).data = some e.timestamp
      exact parse_marshalTimestamp e.timestamp ts hts
    rw [RateEvent.unmarshalJson]
    rw [hb, hev, hts', hk]
    rfl

/-! ## Claim C10 -/

/-- Claim C10: whenever the publisher's batch serialization of a list of
`RateEvent`s produces JSON (that is, every timestamp is within the RFC 3339
year range — true of every event the program stamps with `time.Now()`), the
consumer's deserialization of the `events` field yields exactly the original
events: broker id, event kind, key and timestamp are all preserved. -/
theorem events_json_roundtrip (events : List RateEvent) (j : Json)
    (h : publishEventsJson events = some j) :
    consumeEventsJson j = some events := by
  unfold publishEventsJson at h
  split at h
  · exact absurd h (by simp)
  · rename_i js hjs
    injection h with hj
    subst hj
    show js.mapM RateEvent.unmarshalJson = some events
    induction events generalizing js with
    | nil =>
      rw [show (([] : List RateEvent).mapM RateEvent.marshalJson) = some []
        from rfl] at hjs
      obtain rfl : js = [] := (Option.some.inj hjs).symm
      rfl
    | cons e rest ih =>
      rw [List.mapM_cons] at hjs
      rcases he : e.marshalJson with _ | je
      · rw [he] at hjs
        simp at hjs
      · rw [he] at hjs
        rcases hr : rest.mapM RateEvent.marshalJson with _ | jrest
        · rw [hr] at hjs
          simp at hjs
        · rw [hr] at hjs
          simp only [Option.pure_def, Option.bind_eq_bind, Option.some_bind] at hjs
          injection hjs with hjs'
          subst hjs'
          rw [List.mapM_cons, unmarshal_marshalJson e je he, ih jrest hr]
          rfl

/-- Witness for C10 at a concrete event (timestamp
2023-11-14T22:13:20.123456789Z): serializing and deserializing returns the
event unchanged. -/
theorem events_json_roundtrip_witness :
    consumeEventsJson ((publishEventsJson
        [(⟨"broker-1", requestAccepted, 1700000000123456789, "user1"⟩ : RateEvent)]).getD
      Json.null) =
      some [(⟨"broker-1", requestAccepted, 1700000000123456789, "user1"⟩ : RateEvent)] :=
  events_json_roundtrip _ _ (by rfl)

end Ratebroker
